import Mathlib

/-!
Shallow embedding of the approx-lru repository (Go) in Lean 4.

The single-shard engine is `src/simplelru/lru.go`; the sharded wrapper is
`src/sharded_lru.go`.  Go values of type `interface{}` that may be `nil`
(entry keys and values, and the keys of the `items` map) are modelled as
`Option`; the zero entry `entry{}` is `⟨0, none, none⟩`.  The Go map
`items : map[interface{}]int` is modelled as an association list with
insert-replace semantics (Go map iteration order is unspecified, so the
list order carries no meaning beyond enumeration).  The per-instance RNG
is modelled by explicit oracle arguments: `removeOldest` takes the raw
draw `r` (the Go `rng.Intn(size)` becomes `r % size`, which ranges over
all of `[0, size)`), and `shuffle` takes a function `js` supplying the
`j` drawn for each index `i` of the Fisher-Yates loop (`js i % (i+1)`,
matching `rand.Intn(i+1)`).  The eviction callback is modelled by an
`onEvict` presence flag plus an event log returned by each operation.
Go panics (fatal failures) are modelled as `none` results where they are
reachable: the `c.data[i] = ent` write in `Add` with an out-of-range
index, the int64 counter-overflow check in `getCounter`, and the
out-of-range accesses and the `"we mucked it up"` assertion in `Resize`.
-/

namespace ApproxLRU

/-- Translation of `entry` from `src/simplelru/lru.go`: `lastUsed int64`,
`key interface{}`, `value interface{}`. -/
structure Entry (K V : Type) where
  lastUsed : Int
  key : Option K
  value : Option V
deriving DecidableEq

/-- The Go zero value `entry{}` used to clear a slot. -/
def zeroEntry {K V : Type} : Entry K V := ⟨0, none, none⟩

/-- Translation of the `LRU` struct from `src/simplelru/lru.go`.  `onEvict`
records whether a callback was supplied (`onEvict != nil`). -/
structure LRU (K V : Type) where
  items : List (Option K × Nat)
  data : List (Entry K V)
  counter : Int
  size : Int
  onEvict : Bool
deriving DecidableEq

/-- The eviction-callback log of one operation: the `(key, value)` pairs the
callback was invoked with, in invocation order. -/
abbrev EvLog (K V : Type) := List (Option K × Option V)

/-- Lookup in the modelled Go map `items`. -/
def mapFind {K : Type} [DecidableEq K] (l : List (Option K × Nat)) (k : Option K) : Option Nat :=
  match l with
  | [] => none
  | (k2, v) :: t => if k2 = k then some v else mapFind t k

/-- Assignment `m[k] = v` in the modelled Go map: any previous binding of `k`
is dropped and the new binding appended. -/
def mapInsert {K : Type} [DecidableEq K] (l : List (Option K × Nat)) (k : Option K) (v : Nat) :
    List (Option K × Nat) :=
  l.filter (fun p => p.1 ≠ k) ++ [(k, v)]

/-- The Go `delete(m, k)`. -/
def mapErase {K : Type} [DecidableEq K] (l : List (Option K × Nat)) (k : Option K) :
    List (Option K × Nat) :=
  l.filter (fun p => p.1 ≠ k)

/-- Read `data[i]`.  All verified runs keep this index in range; the one
reachable out-of-range data access (`c.data[i] = ent` in `Add` after
`removeOldest` returns `-1`) is modelled explicitly in `addGo`. -/
def dGet {K V : Type} (data : List (Entry K V)) (i : Nat) : Entry K V :=
  data.getD i zeroEntry

/-- Number of live (nonzero-stamped) entries in the buffer. -/
def liveCount {K V : Type} (data : List (Entry K V)) : Nat :=
  (data.filter (fun e => e.lastUsed ≠ 0)).length

/-- Signed 64-bit wrap-around, for the `counter int64` field. -/
def wrap64 (x : Int) : Int := (x + 2 ^ 63) % 2 ^ 64 - 2 ^ 63

/-- Translation of `(c *LRU) getCounter`: returns the current counter and
increments it; the increment overflowing to a negative value is the fatal
`"counter overflow"` panic, modelled as `none`. -/
def getCounter {K V : Type} (c : LRU K V) : Option (Int × LRU K V) :=
  let n := c.counter
  let c2 := wrap64 (c.counter + 1)
  if c2 < 0 then none else some (n, { c with counter := c2 })

/-- Translation of `NewLRU` from `src/simplelru/lru.go`. -/
def newLRU (K V : Type) (size : Int) (onEvict : Bool) : Option (LRU K V) :=
  if size ≤ 0 then none
  else some { items := [], data := [], counter := 1, size := size, onEvict := onEvict }

/-- The constant `randomProbes = 8` of `src/simplelru/lru.go`. -/
def randomProbes : Nat := 8

/-- One iteration of the probe loops of `removeOldest`: compare the candidate
at `off` against the running `(oldestOff, oldest)` pair. -/
def probeStep {K V : Type} (data : List (Entry K V)) (off : Nat) (st : Nat × Entry K V) :
    Nat × Entry K V :=
  if (dGet data off).lastUsed < st.2.lastUsed then (off, dGet data off) else st

/-- The fast-path probe loop of `removeOldest` (no modular reduction),
taken when `base + randomProbes - 1 < size`. -/
def probeFast {K V : Type} (data : List (Entry K V)) (base : Nat) : Nat × Entry K V :=
  (List.range' 1 (randomProbes - 1)).foldl
    (fun st j => probeStep data (base + j) st) (base, dGet data base)

/-- The wrap-around probe loop of `removeOldest` (`(base + j) % size`). -/
def probeWrap {K V : Type} (data : List (Entry K V)) (size base : Nat) : Nat × Entry K V :=
  (List.range' 1 (randomProbes - 1)).foldl
    (fun st j => probeStep data ((base + j) % size) st) (base, dGet data base)

/-- Translation of `(c *LRU) removeElement`: zero the slot, delete the key
from `items`, invoke the callback when one is installed. -/
def removeElementGo {K V : Type} [DecidableEq K] (c : LRU K V) (i : Nat) (ent : Entry K V) :
    LRU K V × EvLog K V :=
  ({ c with data := c.data.set i zeroEntry, items := mapErase c.items ent.key },
   if c.onEvict then [(ent.key, ent.value)] else [])

/-- Translation of `(c *LRU) removeOldest`.  `r` is the raw RNG draw; the Go
`c.rng.Intn(size)` is `r % size`. -/
def removeOldestGo {K V : Type} [DecidableEq K] (c : LRU K V) (r : Nat) :
    Int × LRU K V × EvLog K V :=
  let size := c.items.length
  if size ≤ 0 then (-1, c, [])
  else
    let base := r % size
    let sel :=
      if base + randomProbes - 1 < size then probeFast c.data base
      else probeWrap c.data size base
    let oldestOff := sel.1
    let oldest := sel.2
    if oldest.lastUsed ≠ 0 then
      let rm := removeElementGo c oldestOff oldest
      ((oldestOff : Int), rm.1, rm.2)
    else ((oldestOff : Int), c, [])

/-- The swap closure passed to `rng.Shuffle` in `(c *LRU) shuffle`:
`items[data[i].key] = j; items[data[j].key] = i; data[i], data[j] = data[j], data[i]`. -/
def shuffleSwap {K V : Type} [DecidableEq K] (c : LRU K V) (i j : Nat) : LRU K V :=
  let di := dGet c.data i
  let dj := dGet c.data j
  { c with
    items := mapInsert (mapInsert c.items di.key j) dj.key i,
    data := (c.data.set i dj).set j di }

/-- The Fisher-Yates loop of Go `rand.Shuffle(n, swap)`: for `i` from `n-1`
down to `1`, swap `i` with a drawn `j ∈ [0, i]`; `js` is the RNG oracle and
`js i % (i + 1)` models `rand.Intn(i + 1)`. -/
def shuffleAux {K V : Type} [DecidableEq K] (js : Nat → Nat) : Nat → LRU K V → LRU K V
  | 0, c => c
  | i + 1, c => shuffleAux js i (shuffleSwap c (i + 1) (js (i + 1) % (i + 2)))

/-- Translation of `(c *LRU) shuffle`. -/
def shuffleGo {K V : Type} [DecidableEq K] (c : LRU K V) (js : Nat → Nat) : LRU K V :=
  shuffleAux js (c.data.length - 1) c

/-- Translation of `(c *LRU) Add`.  `r` and `js` are the RNG oracles for the
eviction probe and the fill-time shuffle.  The result is `none` on a panic:
counter overflow, or the write `c.data[i] = ent` with `i` out of range
(which happens when `removeOldest` returns `-1`). -/
def addGo {K V : Type} [DecidableEq K] (c : LRU K V) (key : K) (value : V) (r : Nat)
    (js : Nat → Nat) : Option (Bool × LRU K V × EvLog K V) :=
  match getCounter c with
  | none => none
  | some (now, c1) =>
    match mapFind c1.items (some key) with
    | some i =>
      let e := dGet c1.data i
      some (false, { c1 with data := c1.data.set i { e with lastUsed := now, value := some value } }, [])
    | none =>
      let ent : Entry K V := ⟨now, some key, some value⟩
      if (c1.data.length : Int) < c1.size then
        let i := c1.data.length
        let c2 := { c1 with data := c1.data ++ [ent], items := mapInsert c1.items (some key) i }
        let c3 := if (c2.data.length : Int) = c2.size then shuffleGo c2 js else c2
        some (false, c3, [])
      else
        let res := removeOldestGo c1 r
        let off := res.1
        if off < 0 ∨ (res.2.1.data.length : Int) ≤ off then none
        else
          some (true,
            { res.2.1 with
              data := res.2.1.data.set off.toNat ent,
              items := mapInsert res.2.1.items (some key) off.toNat },
            res.2.2)

/-- Translation of `(c *LRU) Get`: on a hit, stamp the entry with a fresh
counter value (`none` on counter overflow). -/
def getGo {K V : Type} [DecidableEq K] (c : LRU K V) (key : K) :
    Option ((Option V × Bool) × LRU K V) :=
  match mapFind c.items (some key) with
  | some i =>
    match getCounter c with
    | none => none
    | some (now, c1) =>
      let e := dGet c1.data i
      some ((e.value, true), { c1 with data := c1.data.set i { e with lastUsed := now } })
  | none => some ((none, false), c)

/-- Translation of `(c *LRU) Contains` as a state transformer: the method
body only reads `items`. -/
def containsGo {K V : Type} [DecidableEq K] (c : LRU K V) (key : K) : Bool × LRU K V :=
  ((mapFind c.items (some key)).isSome, c)

/-- Translation of `(c *LRU) Peek` as a state transformer: the method body
reads `items` and `data` and mutates nothing. -/
def peekGo {K V : Type} [DecidableEq K] (c : LRU K V) (key : K) :
    (Option V × Bool) × LRU K V :=
  match mapFind c.items (some key) with
  | some i => (((dGet c.data i).value, true), c)
  | none => ((none, false), c)

/-- Translation of `(c *LRU) Remove`. -/
def removeGo {K V : Type} [DecidableEq K] (c : LRU K V) (key : K) :
    Bool × LRU K V × EvLog K V :=
  match mapFind c.items (some key) with
  | some i =>
    let rm := removeElementGo c i (dGet c.data i)
    (true, rm.1, rm.2)
  | none => (false, c, [])

/-- Translation of `(c *LRU) Len`. -/
def lenGo {K V : Type} (c : LRU K V) : Nat := c.items.length

/-- Translation of `(c *LRU) Purge`: fire the callback for every `items`
entry, then clear both structures. -/
def purgeGo {K V : Type} [DecidableEq K] (c : LRU K V) : LRU K V × EvLog K V :=
  ({ c with data := [], items := [] },
   if c.onEvict then c.items.map (fun p => (p.1, (dGet c.data p.2).value)) else [])

/-- Insertion into a buffer sorted by strictly decreasing `lastUsed`. -/
def insertDesc {K V : Type} (e : Entry K V) : List (Entry K V) → List (Entry K V)
  | [] => [e]
  | x :: t => if e.lastUsed > x.lastUsed then e :: x :: t else x :: insertDesc e t

/-- Model of `sort.Sort(byLastUsed(c.data))` (comparator
`a[i].lastUsed > a[j].lastUsed`, i.e. descending).  Go's sort is unstable,
but in every state this development evaluates live stamps are pairwise
distinct and vacated slots are the identical `zeroEntry`, so the descending
order of the multiset is unique and insertion sort produces it. -/
def sortDesc {K V : Type} : List (Entry K V) → List (Entry K V)
  | [] => []
  | x :: t => insertDesc x (sortDesc t)

/-- The `items` rebuild loop of `Resize`:
`for i, entry := range c.data { if entry.lastUsed == 0 { continue }; c.items[entry.key] = i }`. -/
def rebuildItems {K V : Type} [DecidableEq K] (items : List (Option K × Nat))
    (data : List (Entry K V)) : List (Option K × Nat) :=
  data.enum.foldl (fun its p => if p.2.lastUsed = 0 then its else mapInsert its p.2.key p.1) items

/-- The eviction loop of `Resize`: `cnt` iterations, walking `j` from
`oldSize - 1` downwards and removing live entries; a negative `j` is the Go
out-of-range panic, modelled as `none`. -/
def resizeRemoveLoop {K V : Type} [DecidableEq K] (oldSize : Nat) :
    Nat → Nat → LRU K V → Option (LRU K V × EvLog K V)
  | 0, _, c => some (c, [])
  | cnt + 1, i, c =>
    let j : Int := (oldSize : Int) - 1 - (i : Int)
    if j < 0 then none
    else
      let e := dGet c.data j.toNat
      if e.lastUsed > 0 then
        let rm := removeElementGo c j.toNat e
        (resizeRemoveLoop oldSize cnt (i + 1) rm.1).map (fun q => (q.1, rm.2 ++ q.2))
      else resizeRemoveLoop oldSize cnt (i + 1) c

/-- Translation of `(c *LRU) Resize`.  `none` models the Go panics: a
negative slice index in the eviction loop, a negative slice bound
`c.data[:size]`, and the fatal `len(c.data) != len(c.items)` assertion. -/
def resizeGo {K V : Type} [DecidableEq K] (c : LRU K V) (n : Int) (js : Nat → Nat) :
    Option (Int × LRU K V × EvLog K V) :=
  let diff := if (c.items.length : Int) - n < 0 then 0 else (c.items.length : Int) - n
  let c1 := { c with data := sortDesc c.data }
  let c2 := { c1 with items := rebuildItems c1.items c1.data }
  let oldSize := c2.data.length
  match resizeRemoveLoop oldSize diff.toNat 0 c2 with
  | none => none
  | some (c3, log) =>
    let c4 := { c3 with size := n }
    if n < (oldSize : Int) then
      if n < 0 then none
      else
        let c5 := { c4 with data := c4.data.take n.toNat }
        if c5.data.length ≠ c5.items.length then none
        else some (diff, shuffleGo c5 js, log)
    else
      if c4.data.length ≠ c4.items.length then none
      else some (diff, shuffleGo c4 js, log)

/-- The constant `shardCount = 256` of `src/sharded_lru.go`. -/
def shardCount : Nat := 256

/-- Model of the `ShardedCache` of `src/sharded_lru.go`: the per-shard
engines and the effective total capacity.  The hash seeder and the locks
have no bearing on the capacity claims. -/
structure ShardedCacheM (K V : Type) where
  shards : List (LRU K V)
  size : Int
deriving DecidableEq

/-- The shard-construction loop of `NewShardedWithEvict`: each shard gets a
fresh `NewLRU(perShardSize)`; any constructor error aborts. -/
def mkShards (K V : Type) (per : Int) (ev : Bool) : Nat → Option (List (LRU K V))
  | 0 => some []
  | n + 1 =>
    match newLRU K V per ev with
    | none => none
    | some l => (mkShards K V per ev n).map (fun t => l :: t)

/-- Translation of `NewShardedWithEvict` from `src/sharded_lru.go`: raise
`size` to `shardCount` when smaller, divide it evenly among the shards, and
record the effective total `perShardSize * shardCount`. -/
def newShardedGo (K V : Type) (size : Int) (ev : Bool) : Option (ShardedCacheM K V) :=
  let size1 := if size < (shardCount : Int) then (shardCount : Int) else size
  let per := size1 / (shardCount : Int)
  let size2 := per * (shardCount : Int)
  (mkShards K V per ev shardCount).map (fun ls => ⟨ls, size2⟩)

/-- Trace operations of the public single-shard interface, with the RNG
oracles each operation consumes. -/
inductive Op (K V : Type) where
  | add (k : K) (v : V) (r : Nat) (js : Nat → Nat)
  | get (k : K)
  | peek (k : K)
  | contains (k : K)
  | remove (k : K)
  | purge
  | resize (n : Int) (js : Nat → Nat)

/-- Counters for the eviction-accounting property: `add` calls that returned
`evicted = true`, `remove` calls that returned `true`, live entries present
at each `purge`, and eviction-callback invocations. -/
structure Stats where
  addEvicted : Nat
  removeTrue : Nat
  purgeLive : Nat
  callbacks : Nat
deriving DecidableEq

/-- The zero `Stats`. -/
def stats0 : Stats := ⟨0, 0, 0, 0⟩

/-- Run one public operation, threading the cache state and the accounting
counters; `none` is a Go panic. -/
def stepOp {K V : Type} [DecidableEq K] (c : LRU K V) (st : Stats) :
    Op K V → Option (LRU K V × Stats)
  | .add k v r js =>
    (addGo c k v r js).map (fun q =>
      (q.2.1, { st with
        addEvicted := st.addEvicted + (if q.1 then 1 else 0),
        callbacks := st.callbacks + q.2.2.length }))
  | .get k => (getGo c k).map (fun q => (q.2, st))
  | .peek k => some ((peekGo c k).2, st)
  | .contains k => some ((containsGo c k).2, st)
  | .remove k =>
    let q := removeGo c k
    some (q.2.1, { st with
      removeTrue := st.removeTrue + (if q.1 then 1 else 0),
      callbacks := st.callbacks + q.2.2.length })
  | .purge =>
    let q := purgeGo c
    some (q.1, { st with
      purgeLive := st.purgeLive + liveCount c.data,
      callbacks := st.callbacks + q.2.length })
  | .resize n js =>
    (resizeGo c n js).map (fun q =>
      (q.2.1, { st with callbacks := st.callbacks + q.2.2.length }))

/-- Run a trace of public operations. -/
def execOps {K V : Type} [DecidableEq K] :
    List (Op K V) → LRU K V → Stats → Option (LRU K V × Stats)
  | [], c, st => some (c, st)
  | o :: t, c, st =>
    match stepOp c st o with
    | none => none
    | some (c2, st2) => execOps t c2 st2

/-- Generic form of the probe loops: fold `probeStep` over a list of offsets. -/
def probeFold {K V : Type} (data : List (Entry K V)) (offs : List Nat)
    (st : Nat × Entry K V) : Nat × Entry K V :=
  offs.foldl (fun s o => probeStep data o s) st

/-- The behaviour `evict_oldest` is claimed to have, for base offset
`base = r % size` where `size` is the code's `c.Len()`: the returned index
is one of the eight examined slots `data[(base + j) % size]`, it carries the
smallest `last_used` among them, a nonzero-stamped selection is removed
(slot zeroed, key deleted from `items`, callback fired), and a zero-stamped
selection is returned untouched with no callback. -/
def RemoveOldestOk {K V : Type} [DecidableEq K] (c : LRU K V) (r : Nat) : Prop :=
  let size := c.items.length
  let base := r % size
  let res := removeOldestGo c r
  let off := res.1
  (∃ j, j < randomProbes ∧ off = (((base + j) % size : Nat) : Int)) ∧
  (∀ j, j < randomProbes →
    (dGet c.data off.toNat).lastUsed ≤ (dGet c.data ((base + j) % size)).lastUsed) ∧
  ((dGet c.data off.toNat).lastUsed ≠ 0 →
    res.2.1 = { c with data := c.data.set off.toNat zeroEntry,
                       items := mapErase c.items (dGet c.data off.toNat).key } ∧
    res.2.2 = (if c.onEvict then
      [((dGet c.data off.toNat).key, (dGet c.data off.toNat).value)] else [])) ∧
  ((dGet c.data off.toNat).lastUsed = 0 → res.2.1 = c ∧ res.2.2 = [])

/-- The state produced by the filling branch of `Add`: fresh stamp, entry
appended at index `|data|`, `items[k]` set to that index. -/
def addFillState {K V : Type} [DecidableEq K] (c : LRU K V) (k : K) (v : V) : LRU K V :=
  { c with counter := c.counter + 1,
           data := c.data ++ [⟨c.counter, some k, some v⟩],
           items := mapInsert c.items (some k) c.data.length }

/-- The behaviour `add` is claimed to have, amended only in the
at-capacity case by the proviso that a live entry remains (`items ≠ []`):
an existing key is restamped and updated in place with result `false`; a
new key below capacity is appended at index `|data|` with result `false`,
shuffling exactly when the append fills the buffer; a new key at capacity
goes through `evict_oldest`, whose vacated index receives the new entry,
with result `true`. -/
def AddOk {K V : Type} [DecidableEq K] (c : LRU K V) (k : K) (v : V) (r : Nat)
    (js : Nat → Nat) : Prop :=
  (∀ i, mapFind c.items (some k) = some i →
    addGo c k v r js = some (false,
      { c with counter := c.counter + 1,
               data := c.data.set i
                 { dGet c.data i with lastUsed := c.counter, value := some v } },
      [])) ∧
  (mapFind c.items (some k) = none → (c.data.length : Int) < c.size →
    addGo c k v r js = some (false,
      (if (c.data.length : Int) + 1 = c.size then shuffleGo (addFillState c k v) js
       else addFillState c k v),
      [])) ∧
  (mapFind c.items (some k) = none → ¬ (c.data.length : Int) < c.size → c.items ≠ [] →
    ∃ i : Nat,
      (removeOldestGo { c with counter := c.counter + 1 } r).1 = (i : Int) ∧
      addGo c k v r js = some (true,
        { (removeOldestGo { c with counter := c.counter + 1 } r).2.1 with
            data := (removeOldestGo { c with counter := c.counter + 1 } r).2.1.data.set i
              ⟨c.counter, some k, some v⟩,
            items := mapInsert (removeOldestGo { c with counter := c.counter + 1 } r).2.1.items
              (some k) i },
        (removeOldestGo { c with counter := c.counter + 1 } r).2.2))

/-- The oracle standing in for identity-like RNG draws in concrete runs. -/
def jsId : Nat → Nat := fun i => i

/-- The RNG oracle that always draws `0`. -/
def js0 : Nat → Nat := fun _ => 0

/-- A concrete full, live, size-1 cache used by witnesses. -/
def cW : LRU Nat Nat := ⟨[(some 0, 0)], [⟨5, some 0, some 7⟩], 2, 1, true⟩

/-- A concrete 8-entry buffer used by the C7 witness. -/
def dataW : List (Entry Nat Nat) :=
  [⟨3, some 0, some 0⟩, ⟨9, some 1, some 1⟩, ⟨1, some 2, some 2⟩, ⟨7, some 3, some 3⟩,
   ⟨2, some 4, some 4⟩, ⟨8, some 5, some 5⟩, ⟨6, some 6, some 6⟩, ⟨4, some 7, some 7⟩]

/-- Empty caches of capacity 1, 2 and 3 with a callback installed, as
produced by `NewLRU`. -/
def cInit1 : LRU Nat Nat := ⟨[], [], 1, 1, true⟩

def cInit2 : LRU Nat Nat := ⟨[], [], 1, 2, true⟩

def cInit3 : LRU Nat Nat := ⟨[], [], 1, 3, true⟩

/-! Helper lemmas. -/

theorem wrap64_eq {x : Int} (h1 : -(2 ^ 63) ≤ x) (h2 : x < 2 ^ 63) : wrap64 x = x := by
  unfold wrap64
  rw [Int.emod_eq_of_lt (by omega) (by omega)]
  omega

theorem getCounter_eq {K V : Type} (c : LRU K V) (h1 : 0 ≤ c.counter)
    (h2 : c.counter + 1 < 2 ^ 63) :
    getCounter c = some (c.counter, { c with counter := c.counter + 1 }) := by
  unfold getCounter
  rw [wrap64_eq (by omega) h2]
  simp only [if_neg (by omega : ¬ c.counter + 1 < 0)]

theorem probeStep_le_left {K V : Type} (data : List (Entry K V)) (o : Nat)
    (st : Nat × Entry K V) : (probeStep data o st).2.lastUsed ≤ st.2.lastUsed := by
  unfold probeStep
  by_cases h : (dGet data o).lastUsed < st.2.lastUsed
  · rw [if_pos h]
    exact le_of_lt h
  · rw [if_neg h]

theorem probeStep_le_cand {K V : Type} (data : List (Entry K V)) (o : Nat)
    (st : Nat × Entry K V) : (probeStep data o st).2.lastUsed ≤ (dGet data o).lastUsed := by
  unfold probeStep
  by_cases h : (dGet data o).lastUsed < st.2.lastUsed
  · rw [if_pos h]
  · rw [if_neg h]
    omega

theorem probeStep_snd {K V : Type} (data : List (Entry K V)) (o : Nat)
    (st : Nat × Entry K V) (h : st.2 = dGet data st.1) :
    (probeStep data o st).2 = dGet data (probeStep data o st).1 := by
  unfold probeStep
  by_cases h2 : (dGet data o).lastUsed < st.2.lastUsed
  · rw [if_pos h2]
  · rw [if_neg h2]
    exact h

theorem probeStep_fst {K V : Type} (data : List (Entry K V)) (o : Nat)
    (st : Nat × Entry K V) :
    (probeStep data o st).1 = o ∨ (probeStep data o st).1 = st.1 := by
  unfold probeStep
  by_cases h : (dGet data o).lastUsed < st.2.lastUsed
  · rw [if_pos h]
    exact Or.inl rfl
  · rw [if_neg h]
    exact Or.inr rfl

theorem probeFold_cons {K V : Type} (data : List (Entry K V)) (o : Nat) (offs : List Nat)
    (st : Nat × Entry K V) :
    probeFold data (o :: offs) st = probeFold data offs (probeStep data o st) := rfl

theorem probeFold_snd {K V : Type} (data : List (Entry K V)) :
    ∀ (offs : List Nat) (st : Nat × Entry K V), st.2 = dGet data st.1 →
      (probeFold data offs st).2 = dGet data (probeFold data offs st).1
  | [], _st, h => h
  | o :: t, st, h => probeFold_snd data t _ (probeStep_snd data o st h)

theorem probeFold_le_start {K V : Type} (data : List (Entry K V)) :
    ∀ (offs : List Nat) (st : Nat × Entry K V),
      (probeFold data offs st).2.lastUsed ≤ st.2.lastUsed
  | [], _st => le_refl _
  | o :: t, st =>
    le_trans (probeFold_le_start data t (probeStep data o st)) (probeStep_le_left data o st)

theorem probeFold_le_mem {K V : Type} (data : List (Entry K V)) :
    ∀ (offs : List Nat) (st : Nat × Entry K V) (o : Nat), o ∈ offs →
      (probeFold data offs st).2.lastUsed ≤ (dGet data o).lastUsed
  | [], _, o, ho => absurd ho (List.not_mem_nil o)
  | x :: t, st, o, ho => by
    rcases List.mem_cons.mp ho with h | h
    · subst h
      exact le_trans (probeFold_le_start data t (probeStep data o st))
        (probeStep_le_cand data o st)
    · exact probeFold_le_mem data t (probeStep data x st) o h

theorem probeFold_fst_mem {K V : Type} (data : List (Entry K V)) :
    ∀ (offs : List Nat) (st : Nat × Entry K V),
      (probeFold data offs st).1 = st.1 ∨ (probeFold data offs st).1 ∈ offs
  | [], _ => Or.inl rfl
  | x :: t, st => by
    rcases probeFold_fst_mem data t (probeStep data x st) with h | h
    · rcases probeStep_fst data x st with h2 | h2
      · refine Or.inr ?_
        rw [probeFold_cons, h, h2]
        exact List.mem_cons_self x t
      · exact Or.inl (h.trans h2)
    · exact Or.inr (List.mem_cons_of_mem x h)

theorem probeFast_eq_fold {K V : Type} (data : List (Entry K V)) (base : Nat) :
    probeFast data base =
      probeFold data ((List.range' 1 (randomProbes - 1)).map (fun j => base + j))
        (base, dGet data base) := by
  unfold probeFast probeFold
  rw [List.foldl_map]

theorem probeWrap_eq_fold {K V : Type} (data : List (Entry K V)) (size base : Nat) :
    probeWrap data size base =
      probeFold data ((List.range' 1 (randomProbes - 1)).map (fun j => (base + j) % size))
        (base, dGet data base) := by
  unfold probeWrap probeFold
  rw [List.foldl_map]

theorem range'_probes : List.range' 1 (randomProbes - 1) = [1, 2, 3, 4, 5, 6, 7] := rfl

theorem probe_fast_eq_wrap {K V : Type} (data : List (Entry K V)) (size base : Nat)
    (h : base + 7 < size) : probeFast data base = probeWrap data size base := by
  rw [probeFast_eq_fold, probeWrap_eq_fold]
  have hmap : (List.range' 1 (randomProbes - 1)).map (fun j => base + j) =
      (List.range' 1 (randomProbes - 1)).map (fun j => (base + j) % size) := by
    apply List.map_congr_left
    intro j hj
    have hj7 : j ≤ 7 := by
      have h8 : randomProbes = 8 := rfl
      have := List.mem_range'_1.mp hj
      omega
    exact (Nat.mod_eq_of_lt (by omega)).symm
  rw [hmap]

/-- The selected probe index lies in the examined window
`(base + j) % size`, `j < randomProbes`. -/
theorem probeWrap_fst_mem_window {K V : Type} (data : List (Entry K V)) (size base : Nat)
    (hb : base < size) :
    ∃ j, j < randomProbes ∧ (probeWrap data size base).1 = (base + j) % size := by
  rw [probeWrap_eq_fold]
  rcases probeFold_fst_mem data
      ((List.range' 1 (randomProbes - 1)).map (fun j => (base + j) % size))
      (base, dGet data base) with h | h
  · exact ⟨0, by decide, by rw [h, Nat.add_zero, Nat.mod_eq_of_lt hb]⟩
  · rcases List.mem_map.mp h with ⟨j, hj, hje⟩
    have h8 : randomProbes = 8 := rfl
    have hjr := List.mem_range'_1.mp hj
    exact ⟨j, by omega, hje.symm⟩

/-- The selected probe entry has the minimal `lastUsed` over the window. -/
theorem probeWrap_min {K V : Type} (data : List (Entry K V)) (size base : Nat)
    (hb : base < size) :
    ∀ j, j < randomProbes →
      (probeWrap data size base).2.lastUsed ≤ (dGet data ((base + j) % size)).lastUsed := by
  intro j hj
  rw [probeWrap_eq_fold]
  have h8 : randomProbes = 8 := rfl
  by_cases hj0 : j = 0
  · subst hj0
    rw [Nat.add_zero, Nat.mod_eq_of_lt hb]
    exact probeFold_le_start data _ _
  · apply probeFold_le_mem data _ _ _
    exact List.mem_map.mpr ⟨j, List.mem_range'_1.mpr ⟨by omega, by omega⟩, rfl⟩

/-- The selected probe entry is the buffer entry at the selected index. -/
theorem probeWrap_snd {K V : Type} (data : List (Entry K V)) (size base : Nat) :
    (probeWrap data size base).2 = dGet data (probeWrap data size base).1 := by
  rw [probeWrap_eq_fold]
  exact probeFold_snd data _ _ rfl

theorem probeWrap_fst_lt {K V : Type} (data : List (Entry K V)) (size base : Nat)
    (hs : 0 < size) (hb : base < size) : (probeWrap data size base).1 < size := by
  rcases probeWrap_fst_mem_window data size base hb with ⟨j, _, hje⟩
  rw [hje]
  exact Nat.mod_lt _ hs

/-- With at least one `items` entry, `removeOldest` always takes a probe
branch, and both branches compute the wrap-around selection. -/
theorem removeOldest_eq {K V : Type} [DecidableEq K] (c : LRU K V) (r : Nat)
    (h : 0 < c.items.length) :
    removeOldestGo c r =
      (if (probeWrap c.data c.items.length (r % c.items.length)).2.lastUsed ≠ 0 then
        (((probeWrap c.data c.items.length (r % c.items.length)).1 : Int),
         (removeElementGo c (probeWrap c.data c.items.length (r % c.items.length)).1
            (probeWrap c.data c.items.length (r % c.items.length)).2).1,
         (removeElementGo c (probeWrap c.data c.items.length (r % c.items.length)).1
            (probeWrap c.data c.items.length (r % c.items.length)).2).2)
      else
        (((probeWrap c.data c.items.length (r % c.items.length)).1 : Int), c, [])) := by
  simp only [removeOldestGo]
  rw [if_neg (by omega : ¬ c.items.length ≤ 0)]
  by_cases h2 : r % c.items.length + randomProbes - 1 < c.items.length
  · rw [if_pos h2, probe_fast_eq_wrap c.data c.items.length (r % c.items.length)
      (by have h8 : randomProbes = 8 := rfl; omega)]
  · rw [if_neg h2]

theorem removeOldest_fst {K V : Type} [DecidableEq K] (c : LRU K V) (r : Nat)
    (h : 0 < c.items.length) :
    (removeOldestGo c r).1 =
      ((probeWrap c.data c.items.length (r % c.items.length)).1 : Int) := by
  rw [removeOldest_eq c r h]
  split <;> rfl

theorem removeOldest_data_length {K V : Type} [DecidableEq K] (c : LRU K V) (r : Nat) :
    (removeOldestGo c r).2.1.data.length = c.data.length := by
  by_cases h : 0 < c.items.length
  · rw [removeOldest_eq c r h]
    split
    · exact List.length_set _ _ _
    · rfl
  · simp only [removeOldestGo]
    rw [if_pos (by omega : c.items.length ≤ 0)]

/-! Claim statements and theorems. -/

/-- C1.  On a cache whose buffer is at capacity and which has at least one
live entry (so that `size = |items| > 0`), `evict_oldest` behaves as the
claim states for every RNG draw `r` (the base `b = r % size` ranges over all
of `[0, size)`; uniformity of the draw is a property of the Go RNG outside
this embedding). -/
theorem removeOldest_matches_claim {K V : Type} [DecidableEq K] (c : LRU K V) (r : Nat)
    (_hcap : (c.data.length : Int) = c.size) (hlive : 0 < c.items.length) :
    RemoveOldestOk c r := by
  have hblt : r % c.items.length < c.items.length := Nat.mod_lt _ hlive
  have hsnd := probeWrap_snd c.data c.items.length (r % c.items.length)
  have hfst := removeOldest_fst c r hlive
  have htn : (removeOldestGo c r).1.toNat =
      (probeWrap c.data c.items.length (r % c.items.length)).1 := by
    rw [hfst]
    exact Int.toNat_natCast _
  have hde : dGet c.data (removeOldestGo c r).1.toNat =
      (probeWrap c.data c.items.length (r % c.items.length)).2 := by
    rw [htn, ← hsnd]
  refine ⟨?_, ?_, ?_, ?_⟩
  · rcases probeWrap_fst_mem_window c.data c.items.length (r % c.items.length) hblt
      with ⟨j, hj, hje⟩
    exact ⟨j, hj, by rw [hfst, hje]⟩
  · intro j hj
    rw [hde]
    exact probeWrap_min c.data c.items.length (r % c.items.length) hblt j hj
  · intro hnz
    rw [hde] at hnz
    have heq := removeOldest_eq c r hlive
    rw [if_pos hnz] at heq
    constructor
    · show (removeOldestGo c r).2.1 = _
      rw [heq]
      simp only [removeElementGo]
      rw [Int.toNat_natCast, ← hsnd]
    · show (removeOldestGo c r).2.2 = _
      rw [heq]
      simp only [removeElementGo]
      rw [Int.toNat_natCast, ← hsnd]
  · intro hz
    rw [hde] at hz
    have heq := removeOldest_eq c r hlive
    rw [if_neg (by omega : ¬ (probeWrap c.data c.items.length
      (r % c.items.length)).2.lastUsed ≠ 0)] at heq
    exact ⟨by rw [heq], by rw [heq]⟩

/-- Witness for C1: the theorem applied at a concrete full cache. -/
theorem removeOldest_matches_claim_witness :
    ((cW.data.length : Int) = cW.size) ∧ (0 < cW.items.length) ∧ RemoveOldestOk cW 0 :=
  ⟨by decide, by decide, removeOldest_matches_claim cW 0 (by decide) (by decide)⟩

/-- C7.  For every buffer contents and every base offset with
`base + 7 < size`, the fast-path probe loop of `removeOldest` (no modular
reduction) computes the same selection — index and entry — as the
wrap-around probe loop. -/
theorem probe_paths_agree {K V : Type} (data : List (Entry K V)) (size base : Nat)
    (h : base + 7 < size) : probeFast data base = probeWrap data size base :=
  probe_fast_eq_wrap data size base h

/-- Witness for C7 at a concrete buffer and window. -/
theorem probe_paths_agree_witness :
    (0 + 7 < 8) ∧ probeFast dataW 0 = probeWrap dataW 8 0 :=
  ⟨by decide, probe_paths_agree dataW 8 0 (by decide)⟩

/-- C6.  `peek` and `contains` leave the cache state — `items`, `data`,
`counter`, `size` — unchanged, so running either before any operation
sequence `S` yields exactly the run of `S` alone (same final state and same
accounting). -/
theorem peek_contains_no_effect {K V : Type} [DecidableEq K] (c : LRU K V) (st : Stats)
    (k : K) (S : List (Op K V)) :
    (peekGo c k).2 = c ∧ (containsGo c k).2 = c ∧
    execOps (Op.peek k :: S) c st = execOps S c st ∧
    execOps (Op.contains k :: S) c st = execOps S c st := by
  have hp : (peekGo c k).2 = c := by
    unfold peekGo
    rcases mapFind c.items (some k) with _ | i <;> rfl
  refine ⟨hp, rfl, ?_, ?_⟩
  · show (match stepOp c st (Op.peek k) with
      | none => none
      | some (c2, st2) => execOps S c2 st2) = execOps S c st
    simp only [stepOp, hp]
  · rfl

/-- C9.  The `NewLRU` constructor reports an error exactly when the
requested capacity is nonpositive; every other failure in the embedding is
a modelled panic (fatal), and no public operation returns an error value. -/
theorem new_error_iff_nonpositive (size : Int) (ev : Bool) :
    (newLRU Nat Nat size ev).isNone ↔ size ≤ 0 := by
  unfold newLRU
  by_cases h : size ≤ 0
  · simp [h]
  · simp [h]

/-- Witness for C9 at a concrete nonpositive capacity. -/
theorem new_error_iff_nonpositive_witness :
    (newLRU Nat Nat (-1) true).isNone ↔ (-1 : Int) ≤ 0 :=
  new_error_iff_nonpositive (-1) true

/-- C10 (code bug).  From `NewLRU(1)`, the public trace
`Add(0); Remove(0); Add(1)` reaches a full buffer with zero live entries;
`removeOldest` then returns `-1` and `Add` writes `c.data[-1]`, a panic.
The middle conjunct exhibits the intermediate state and the `-1` return. -/
theorem full_cache_all_removed_add_fails :
    newLRU Nat Nat 1 true = some cInit1 ∧
    execOps [Op.add 0 10 0 jsId, Op.remove 0] cInit1 stats0 =
      some (⟨[], [zeroEntry], 2, 1, true⟩, ⟨0, 1, 0, 1⟩) ∧
    (removeOldestGo (⟨[], [zeroEntry], 2, 1, true⟩ : LRU Nat Nat) 0).1 = -1 ∧
    execOps [Op.add 0 10 0 jsId, Op.remove 0, Op.add 1 11 0 jsId] cInit1 stats0 = none := by
  refine ⟨by decide, by decide, by decide, by decide⟩

/-- C3 (code bug).  From `NewLRU(2)`, the trace `Add(0); Remove(0); Add(1)`
fills the buffer while it contains a vacated slot; the fill-time shuffle
(drawing `j = 0` for `i = 1`) executes `items[data[0].key] = 1` on the
zero entry, inserting the `nil` key into `items`.  Afterwards
`|items| = 2` but only one live entry exists, and `items` maps the `nil`
key to a zero-stamped slot — both documented invariants fail. -/
theorem shuffle_with_hole_corrupts_items :
    newLRU Nat Nat 2 true = some cInit2 ∧
    (execOps [Op.add 0 10 0 js0, Op.remove 0, Op.add 1 11 0 js0] cInit2 stats0).map
        (fun q => (q.1.items.length, liveCount q.1.data, mapFind q.1.items none)) =
      some (2, 1, some 1) ∧
    (execOps [Op.add 0 10 0 js0, Op.remove 0, Op.add 1 11 0 js0] cInit2 stats0).map
        (fun q => (dGet q.1.data 1).lastUsed) = some 0 := by
  refine ⟨by decide, by decide, by decide⟩

/-- C4 (code bug).  From `NewLRU(2)`, the trace
`Add(0); Add(1); Remove(0); Add(2)` makes the final `Add` return
`evicted = true` while `removeOldest` merely reuses the vacated slot and
fires no callback: the claimed accounting sum is `2` but only `1` callback
was invoked. -/
theorem eviction_accounting_violated :
    newLRU Nat Nat 2 true = some cInit2 ∧
    (execOps [Op.add 0 10 0 jsId, Op.add 1 11 0 jsId, Op.remove 0, Op.add 2 12 0 jsId]
        cInit2 stats0).map
      (fun q => (q.2.addEvicted + q.2.removeTrue + q.2.purgeLive, q.2.callbacks)) =
    some (2, 1) := by
  refine ⟨by decide, by decide⟩

/-- C5 (code bug).  From `NewLRU(3)`, fill with keys 0,1,2 (identity
shuffle draws), remove key 2, then `Resize(1)`.  The reachable pre-resize
state satisfies the documented invariants (second conjunct: 2 items, 2 live
entries, buffer length 3), yet `Resize(1)` removes no live entry — the
vacated slot sits in its removal window — and then hits the fatal
`len(items) != len(data)` assertion, so the run panics instead of evicting
the oldest live entry. -/
theorem resize_with_hole_hits_fatal_assert :
    newLRU Nat Nat 3 true = some cInit3 ∧
    (execOps [Op.add 0 10 0 jsId, Op.add 1 11 0 jsId, Op.add 2 12 0 jsId, Op.remove 2]
        cInit3 stats0).map
      (fun q => (q.1.items.length, liveCount q.1.data, q.1.data.length)) = some (2, 2, 3) ∧
    execOps [Op.add 0 10 0 jsId, Op.add 1 11 0 jsId, Op.add 2 12 0 jsId, Op.remove 2,
        Op.resize 1 jsId] cInit3 stats0 = none := by
  refine ⟨by decide, by decide, by decide⟩

theorem mkShards_pos {K V : Type} (per : Int) (ev : Bool) (h : 0 < per) :
    ∀ n, mkShards K V per ev n =
      some (List.replicate n ⟨[], [], 1, per, ev⟩)
  | 0 => rfl
  | n + 1 => by
    have hnew : newLRU K V per ev = some ⟨[], [], 1, per, ev⟩ := by
      unfold newLRU
      rw [if_neg (by omega)]
    unfold mkShards
    rw [hnew, mkShards_pos per ev h n]
    rfl

/-- C8.  Sharded construction always succeeds; the requested size is raised
to the shard count (256) when smaller, every shard's engine gets capacity
`size / 256`, and the recorded effective total capacity is
`(size / 256) * 256`. -/
theorem sharded_capacity_raised (size : Int) (ev : Bool) :
    ∃ s : ShardedCacheM Nat Nat,
      newShardedGo Nat Nat size ev = some s ∧
      s.shards.length = shardCount ∧
      (∀ l ∈ s.shards,
        l.size = (if size < (shardCount : Int) then (shardCount : Int) else size) /
          (shardCount : Int)) ∧
      s.size = ((if size < (shardCount : Int) then (shardCount : Int) else size) /
          (shardCount : Int)) * (shardCount : Int) := by
  have hsc : (shardCount : Int) = 256 := rfl
  have hraised : (shardCount : Int) ≤
      (if size < (shardCount : Int) then (shardCount : Int) else size) := by
    split <;> omega
  have hper : 0 < (if size < (shardCount : Int) then (shardCount : Int) else size) /
      (shardCount : Int) := by
    have h2 : (1 : Int) ≤
        (if size < (shardCount : Int) then (shardCount : Int) else size) /
          (shardCount : Int) := by
      rw [Int.le_ediv_iff_mul_le (by omega)]
      omega
    omega
  refine ⟨⟨List.replicate shardCount
      ⟨[], [], 1, (if size < (shardCount : Int) then (shardCount : Int) else size) /
        (shardCount : Int), ev⟩,
      ((if size < (shardCount : Int) then (shardCount : Int) else size) /
        (shardCount : Int)) * (shardCount : Int)⟩, ?_, ?_, ?_, ?_⟩
  · simp only [newShardedGo]
    rw [mkShards_pos _ ev hper shardCount]
    rfl
  · exact List.length_replicate _ _
  · intro l hl
    rw [List.eq_of_mem_replicate hl]
  · rfl

/-- C2 counterexample.  From `NewLRU(2)`, fill with keys 0 and 1, remove
both: the reached state has the buffer at capacity (`|data| = C = 2`) with
zero live entries.  The claim as stated promises `add(2, 12)` there takes
the eviction branch and returns `evicted = true`, but `removeOldest`
returns `-1` (no live entry) and the write `c.data[i]` panics
(`addGo = none`), so the run aborts. -/
theorem add_at_capacity_no_live_fails :
    execOps [Op.add 0 10 0 jsId, Op.add 1 11 0 jsId, Op.remove 0, Op.remove 1]
        cInit2 stats0 =
      some (⟨[], [zeroEntry, zeroEntry], 3, 2, true⟩, ⟨0, 2, 0, 2⟩) ∧
    addGo (⟨[], [zeroEntry, zeroEntry], 3, 2, true⟩ : LRU Nat Nat) 2 12 0 jsId = none ∧
    execOps [Op.add 0 10 0 jsId, Op.add 1 11 0 jsId, Op.remove 0, Op.remove 1,
      Op.add 2 12 0 jsId] cInit2 stats0 = none := by
  refine ⟨by decide, by decide, by decide⟩

/-- C2 amended.  `add` behaves as claimed in all three cases, under no
counter overflow and the documented invariant `|items| ≤ |data|`, with the
at-capacity case guarded by at least one live entry remaining. -/
theorem add_matches_amended_claim {K V : Type} [DecidableEq K] (c : LRU K V) (k : K) (v : V)
    (r : Nat) (js : Nat → Nat) (hc0 : 0 ≤ c.counter) (hc1 : c.counter + 1 < 2 ^ 63)
    (hlen : c.items.length ≤ c.data.length) : AddOk c k v r js := by
  have hgc : getCounter c = some (c.counter, { c with counter := c.counter + 1 }) :=
    getCounter_eq c hc0 hc1
  refine ⟨?_, ?_, ?_⟩
  · intro i hi
    simp only [addGo, hgc, hi]
  · intro h1 h2
    simp only [addGo, hgc, h1]
    rw [if_pos h2]
    simp only [addFillState, List.length_append, List.length_cons, List.length_nil,
      Nat.cast_add, Nat.cast_one, Nat.cast_zero, zero_add]
  · intro h1 h2 h3
    have hpos : 0 < c.items.length := List.length_pos.mpr h3
    have hfst : (removeOldestGo { c with counter := c.counter + 1 } r).1 =
        ((probeWrap c.data c.items.length (r % c.items.length)).1 : Int) :=
      removeOldest_fst { c with counter := c.counter + 1 } r hpos
    have hlt := probeWrap_fst_lt c.data c.items.length (r % c.items.length) hpos
      (Nat.mod_lt _ hpos)
    have hdl : (removeOldestGo { c with counter := c.counter + 1 } r).2.1.data.length =
        c.data.length :=
      removeOldest_data_length { c with counter := c.counter + 1 } r
    refine ⟨(probeWrap c.data c.items.length (r % c.items.length)).1, hfst, ?_⟩
    simp only [addGo, hgc, h1]
    rw [if_neg h2, if_neg ?hguard]
    case hguard =>
      rw [hfst, hdl]
      push_neg
      refine ⟨by positivity, ?_⟩
      have : ((probeWrap c.data c.items.length (r % c.items.length)).1 : Int) <
          (c.data.length : Int) := by
        exact_mod_cast lt_of_lt_of_le hlt hlen
      omega
    rw [hfst, Int.toNat_natCast]

/-- Witness for C2: the amended theorem applied at a concrete full cache
with one live entry, exercising the at-capacity case. -/
theorem add_matches_amended_claim_witness :
    (0 ≤ cW.counter) ∧ (cW.counter + 1 < 2 ^ 63) ∧ (cW.items.length ≤ cW.data.length) ∧
    AddOk cW 5 9 0 jsId :=
  ⟨by decide, by decide, by decide,
   add_matches_amended_claim cW 5 9 0 jsId (by decide) (by decide) (by decide)⟩

end ApproxLRU
